import Mathlib

/-!
Verification of the `engram-accel` numeric kernels (vector similarity,
strength decay, BM25 relevance scoring).

Modelling decisions:

* Rust `f64` values are embedded as the type `F64`: a finite value carries an
  exact real number, and the special values `+inf`, `-inf` and `NaN` are
  explicit constructors.  Arithmetic on finite values is exact real
  arithmetic; the IEEE-754 special-value rules (NaN absorption,
  `0 * inf = NaN`, `x / 0 = ±inf` for `x ≠ 0`, `0 / 0 = NaN`, ...) are kept.
  Rounding, overflow to infinity, and the negative zero are outside the
  scope of this embedding.
* Rust `u32` / `usize` are embedded as `ℕ`, `Vec<T>` as `List`,
  `&str` as `List Char`, `String` terms as Lean `String`.
* `rayon`'s `par_iter().map(...).collect()` is a deterministic order-preserving
  map over the input, so both arms of the size switch are embedded as
  `List.map`; the embedded definition keeps the size test of the source.
-/

/-- Idealized IEEE-754 double: an exact real, or one of the special values. -/
inductive F64 where
  | fin (x : ℝ)
  | pinf
  | ninf
  | nan

namespace F64

noncomputable instance : DecidableEq F64 := fun _ _ => Classical.dec _

/-- IEEE addition (finite part exact). -/
noncomputable def add : F64 → F64 → F64
  | nan, _ => nan
  | fin _, nan => nan
  | pinf, nan => nan
  | ninf, nan => nan
  | fin x, fin y => fin (x + y)
  | fin _, pinf => pinf
  | fin _, ninf => ninf
  | pinf, fin _ => pinf
  | ninf, fin _ => ninf
  | pinf, pinf => pinf
  | ninf, ninf => ninf
  | pinf, ninf => nan
  | ninf, pinf => nan

/-- IEEE multiplication (finite part exact). -/
noncomputable def mul : F64 → F64 → F64
  | nan, _ => nan
  | fin _, nan => nan
  | pinf, nan => nan
  | ninf, nan => nan
  | fin x, fin y => fin (x * y)
  | fin x, pinf => if x = 0 then nan else if 0 < x then pinf else ninf
  | fin x, ninf => if x = 0 then nan else if 0 < x then ninf else pinf
  | pinf, fin y => if y = 0 then nan else if 0 < y then pinf else ninf
  | ninf, fin y => if y = 0 then nan else if 0 < y then ninf else pinf
  | pinf, pinf => pinf
  | pinf, ninf => ninf
  | ninf, pinf => ninf
  | ninf, ninf => pinf

/-- IEEE negation. -/
noncomputable def neg : F64 → F64
  | fin x => fin (-x)
  | pinf => ninf
  | ninf => pinf
  | nan => nan

/-- IEEE division (finite part exact; no negative zero, so `x / 0` for
`x ≠ 0` picks the sign of `x`). -/
noncomputable def div : F64 → F64 → F64
  | nan, _ => nan
  | fin _, nan => nan
  | pinf, nan => nan
  | ninf, nan => nan
  | fin x, fin y =>
      if y = 0 then (if x = 0 then nan else if 0 < x then pinf else ninf)
      else fin (x / y)
  | fin _, pinf => fin 0
  | fin _, ninf => fin 0
  | pinf, fin y => if 0 ≤ y then pinf else ninf
  | ninf, fin y => if 0 ≤ y then ninf else pinf
  | pinf, pinf => nan
  | pinf, ninf => nan
  | ninf, pinf => nan
  | ninf, ninf => nan

noncomputable instance : Add F64 := ⟨add⟩
noncomputable instance : Mul F64 := ⟨mul⟩
noncomputable instance : Neg F64 := ⟨neg⟩
noncomputable instance : Div F64 := ⟨div⟩

/-- IEEE subtraction, as addition of the negation. -/
noncomputable def sub (a b : F64) : F64 := a + (-b)

noncomputable instance : Sub F64 := ⟨sub⟩

/-- Rust `f64::sqrt`: `NaN` on negative input. -/
noncomputable def sqrt : F64 → F64
  | fin x => if x < 0 then nan else fin (Real.sqrt x)
  | pinf => pinf
  | ninf => nan
  | nan => nan

/-- Rust `f64::exp`. -/
noncomputable def exp : F64 → F64
  | fin x => fin (Real.exp x)
  | pinf => pinf
  | ninf => fin 0
  | nan => nan

/-- Rust `f64::ln`: `NaN` on negative input, `-inf` at zero. -/
noncomputable def ln : F64 → F64
  | fin x => if x < 0 then nan else if x = 0 then ninf else fin (Real.log x)
  | pinf => pinf
  | ninf => nan
  | nan => nan

/-- Rust `f64::is_nan`. -/
def isNaN : F64 → Bool
  | nan => true
  | _ => false

/-- Rust `f64::is_infinite`. -/
def isInfinite : F64 → Bool
  | pinf => true
  | ninf => true
  | _ => false

/-- Rust `f64::clamp(0.0, 1.0)`: propagates `NaN`, otherwise clamps. -/
noncomputable def clamp01 : F64 → F64
  | fin x => fin (max 0 (min 1 x))
  | pinf => fin 1
  | ninf => fin 0
  | nan => nan

end F64

/-! ## `src/engram-accel/src/decay.rs` -/

/-- Embedding of `decay.rs::calculate_decayed_strength`.
`access_count` is the `u32` argument, embedded as `ℕ`;
`(1.0 + access_count as f64)` is the exact finite addition `fin 1 + fin n`. -/
noncomputable def calculate_decayed_strength (strength elapsed_days decay_rate : F64)
    (access_count : ℕ) (dampening_factor : F64) : F64 :=
  if strength.isNaN then F64.fin 0
  else
    let dampening := F64.fin 1 + dampening_factor * F64.ln (F64.fin 1 + F64.fin (access_count : ℝ))
    let decayed := strength * F64.exp (-decay_rate * elapsed_days / dampening)
    decayed.clamp01

/-- Embedding of `decay.rs::decay_traces_batch`.  The source loops `i in 0..n`
pushing one result per input trace; `traces[i]` is always in range (the `getD`
default is never read), and the source's
`if i < elapsed_days.len() { elapsed_days[i] } else { 0.0 }` and the analogous
access-count lookup are exactly `List.getD` with defaults `0.0` and `0`. -/
noncomputable def decay_traces_batch (traces : List (F64 × F64 × F64))
    (elapsed_days : List F64) (access_counts : List ℕ)
    (fast_rate mid_rate slow_rate : F64) : List (F64 × F64 × F64) :=
  (List.range traces.length).map fun i =>
    let t := traces.getD i (F64.fin 0, F64.fin 0, F64.fin 0)
    let days := elapsed_days.getD i (F64.fin 0)
    let access := access_counts.getD i 0
    let dampening := F64.fin 1 + F64.fin (0.5 : ℝ) * F64.ln (F64.fin 1 + F64.fin (access : ℝ))
    ((t.1 * F64.exp (-fast_rate * days / dampening)).clamp01,
     (t.2.1 * F64.exp (-mid_rate * days / dampening)).clamp01,
     (t.2.2 * F64.exp (-slow_rate * days / dampening)).clamp01)

/-! ## `src/engram-accel/src/vector.rs` -/

/-- One step of the single-pass loop of `vector.rs::cosine_similarity`,
updating the three accumulators `(dot, norm_a, norm_b)`. -/
noncomputable def simStep (acc : F64 × F64 × F64) (p : F64 × F64) : F64 × F64 × F64 :=
  (acc.1 + p.1 * p.2, acc.2.1 + p.1 * p.1, acc.2.2 + p.2 * p.2)

/-- Embedding of `vector.rs::cosine_similarity`. -/
noncomputable def cosine_similarity (a b : List F64) : F64 :=
  if a.isEmpty || b.isEmpty || a.length != b.length then F64.fin 0
  else
    let acc := (a.zip b).foldl simStep (F64.fin 0, F64.fin 0, F64.fin 0)
    let denom := acc.2.1.sqrt * acc.2.2.sqrt
    if denom = F64.fin 0 then F64.fin 0
    else
      let result := acc.1 / denom
      if result.isNaN || result.isInfinite then F64.fin 0 else result

/-- Embedding of `vector.rs::cosine_sim_with_prenorm` (the per-item helper of
the batch entry point). -/
noncomputable def cosine_sim_with_prenorm (query : List F64) (query_norm : F64)
    (v : List F64) : F64 :=
  if v.length != query.length then F64.fin 0
  else
    let acc := (query.zip v).foldl
      (fun acc p => (acc.1 + p.1 * p.2, acc.2 + p.2 * p.2)) (F64.fin 0, F64.fin 0)
    let denom := query_norm * acc.2.sqrt
    if denom = F64.fin 0 then F64.fin 0
    else
      let result := acc.1 / denom
      if result.isNaN || result.isInfinite then F64.fin 0 else result

/-- Embedding of `vector.rs::cosine_similarity_batch`.  Rust's
`iter().map(|x| x * x).sum::<f64>()` is a left fold with `+` from `0.0`.
`rayon`'s `par_iter().map(..).collect()` is a deterministic order-preserving
map, so both arms of the `store.len() < 256` switch are `List.map`; the
size test itself is kept from the source. -/
noncomputable def cosine_similarity_batch (query : List F64) (store : List (List F64)) :
    List F64 :=
  if query.isEmpty || store.isEmpty then List.replicate store.length (F64.fin 0)
  else
    let query_norm_sq := (query.map fun x => x * x).foldl (· + ·) (F64.fin 0)
    let query_norm := query_norm_sq.sqrt
    if query_norm = F64.fin 0 then List.replicate store.length (F64.fin 0)
    else if store.length < 256 then store.map (cosine_sim_with_prenorm query query_norm)
    else store.map (cosine_sim_with_prenorm query query_norm)

/-! ## `src/engram-accel/src/scoring.rs` -/

/-- Character class of `scoring.rs::tokenize`: `ch.is_alphanumeric() || ch == '_'`.
Rust's classification is full Unicode; this embedding uses Lean's
`Char.isAlphanum`, which agrees with it on the ASCII fragment exercised by
the claims. -/
def isWordChar (c : Char) : Bool := c.isAlphanum || c == '_'

/-- The character loop of `scoring.rs::tokenize`: `current` is the run being
accumulated (Rust pushes each character at the end of `current`), and on a
delimiter a non-empty `current` is flushed. -/
def tokenizeAux : List Char → List Char → List (List Char)
  | [], current => if current.isEmpty then [] else [current]
  | c :: cs, current =>
    if isWordChar c then tokenizeAux cs (current ++ [c])
    else if current.isEmpty then tokenizeAux cs current
    else current :: tokenizeAux cs []

/-- Embedding of `scoring.rs::tokenize`: lowercase, then the run-splitting
loop. Rust's `to_lowercase` is modelled by `Char.toLower` (they agree on
ASCII). -/
def tokenize (text : List Char) : List (List Char) :=
  tokenizeAux (text.map Char.toLower) []

/-- Modelled from the spec's words (for comparison with `tokenize`): "splits
into maximal runs of alphanumeric characters or underscore, discarding all
other characters as delimiters". Each run is taken maximally with
`takeWhile`/`dropWhile`. -/
def specTokens : List Char → List (List Char)
  | [] => []
  | c :: cs =>
    if isWordChar c then
      (c :: cs.takeWhile isWordChar) :: specTokens (cs.dropWhile isWordChar)
    else specTokens cs
termination_by l => l.length
decreasing_by
  · simp only [List.length_cons]
    have := (List.dropWhile_suffix (l := cs) isWordChar).length_le
    omega
  · simp only [List.length_cons]
    omega

/-- Document frequency as built by the first pass of
`scoring.rs::bm25_score_batch`: for each query term, the number of documents
containing it (`doc.iter().any(|t| t == term)`).  The Rust `HashMap` keyed by
the query terms is embedded as this function; the `unwrap_or(&1)` fallback of
the lookup is dead code because every looked-up term was inserted in pass 1. -/
def docFreq (documents : List (List String)) (term : String) : ℕ :=
  (documents.filter fun d => d.contains term).length

/-- Per-document scoring pass of `scoring.rs::bm25_score_batch`.  The
`term_freq` map is embedded as `List.count`; the `None => continue` branch of
the term-frequency lookup is the `tf_nat = 0` test (the map holds exactly the
terms with positive count). -/
noncomputable def bm25DocScore (query_terms : List String) (documents : List (List String))
    (total_docs : ℕ) (avg_doc_len : F64) (k1 b : F64) (doc : List String) : F64 :=
  if doc.isEmpty then F64.fin 0
  else
    let doc_len : F64 := F64.fin (doc.length : ℝ)
    query_terms.foldl (fun score term =>
      let tf_nat := doc.count term
      if tf_nat = 0 then score
      else
        let tf : F64 := F64.fin (tf_nat : ℝ)
        let df : F64 := F64.fin (docFreq documents term : ℝ)
        let idf := F64.ln ((F64.fin (total_docs : ℝ) - df + F64.fin (0.5 : ℝ))
          / (df + F64.fin (0.5 : ℝ)) + F64.fin 1)
        let tf_component := (tf * (k1 + F64.fin 1))
          / (tf + k1 * (F64.fin 1 - b + b * doc_len / avg_doc_len))
        score + idf * tf_component) (F64.fin 0)

/-- Embedding of `scoring.rs::bm25_score_batch`. -/
noncomputable def bm25_score_batch (query_terms : List String) (documents : List (List String))
    (total_docs : ℕ) (avg_doc_len : F64) (k1 b : F64) : List F64 :=
  if query_terms.isEmpty || documents.isEmpty then List.replicate documents.length (F64.fin 0)
  else
    let avg := if avg_doc_len = F64.fin 0 then F64.fin 1 else avg_doc_len
    documents.map (bm25DocScore query_terms documents total_docs avg k1 b)

/-- Values a sum-of-squares accumulator can take: NaN, `+inf`, or a
nonnegative finite value (used to analyse the norm computations of
`vector.rs`). -/
def SqAcc (x : F64) : Prop :=
  x = F64.nan ∨ x = F64.pinf ∨ ∃ r : ℝ, 0 ≤ r ∧ x = F64.fin r

/-! ## Basic lemmas about `F64` arithmetic -/

namespace F64

@[simp] theorem add_fin (x y : ℝ) : fin x + fin y = fin (x + y) := rfl
@[simp] theorem mul_fin (x y : ℝ) : fin x * fin y = fin (x * y) := rfl
@[simp] theorem neg_fin (x : ℝ) : -(fin x) = fin (-x) := rfl
@[simp] theorem sub_fin (x y : ℝ) : fin x - fin y = fin (x + -y) := rfl

@[simp] theorem div_fin (x y : ℝ) (h : y ≠ 0) : fin x / fin y = fin (x / y) := by
  show div _ _ = _
  simp [div, h]

@[simp] theorem sqrt_fin (x : ℝ) (h : ¬ x < 0) : sqrt (fin x) = fin (Real.sqrt x) := by
  simp [sqrt, h]

@[simp] theorem exp_fin (x : ℝ) : exp (fin x) = fin (Real.exp x) := rfl

@[simp] theorem ln_fin (x : ℝ) (h : 0 < x) : ln (fin x) = fin (Real.log x) := by
  simp [ln, not_lt.mpr h.le, h.ne.symm]

@[simp] theorem clamp01_fin (x : ℝ) : clamp01 (fin x) = fin (max 0 (min 1 x)) := rfl
@[simp] theorem clamp01_nan : clamp01 nan = nan := rfl
@[simp] theorem isNaN_fin (x : ℝ) : isNaN (fin x) = false := rfl
@[simp] theorem isNaN_nan : isNaN nan = true := rfl
@[simp] theorem isInfinite_fin (x : ℝ) : isInfinite (fin x) = false := rfl
@[simp] theorem nan_mul (b : F64) : nan * b = nan := rfl

@[simp] theorem mul_nan (a : F64) : a * nan = nan := by
  cases a <;> rfl

@[simp] theorem add_nan (a : F64) : a + nan = nan := by
  cases a <;> rfl

@[simp] theorem nan_add (b : F64) : nan + b = nan := rfl

@[simp] theorem div_nan (a : F64) : a / nan = nan := by
  cases a <;> rfl

@[simp] theorem nan_div (b : F64) : nan / b = nan := rfl

@[simp] theorem sqrt_nan : sqrt nan = nan := rfl
@[simp] theorem sqrt_pinf : sqrt pinf = pinf := rfl
@[simp] theorem isNaN_pinf : isNaN pinf = false := rfl
@[simp] theorem isInfinite_pinf : isInfinite pinf = true := rfl

@[simp] theorem fin_inj (x y : ℝ) : (fin x = fin y) ↔ x = y := by
  constructor
  · intro h; injection h
  · intro h; rw [h]

@[simp] theorem nan_ne_fin (x : ℝ) : ¬ (nan = fin x) := by intro h; injection h
@[simp] theorem fin_ne_nan (x : ℝ) : ¬ (fin x = nan) := by intro h; injection h
@[simp] theorem pinf_ne_fin (x : ℝ) : ¬ (pinf = fin x) := by intro h; injection h
@[simp] theorem ninf_ne_fin (x : ℝ) : ¬ (ninf = fin x) := by intro h; injection h

theorem fin_mul_pinf (x : ℝ) (hx : x = 0) : fin x * pinf = nan := by
  show mul _ _ = _
  simp [mul, hx]

theorem pinf_mul_fin_zero : pinf * fin 0 = nan := by
  show mul _ _ = _
  simp [mul]

end F64

/-! ## General helper lemmas -/

theorem getD_map {α β : Type} (f : α → β) (l : List α) (i : ℕ) (d : α) :
    (l.map f).getD i (f d) = f (l.getD i d) := by
  simp only [List.getD_eq_getElem?_getD, List.getElem?_map]
  cases l[i]? <;> rfl

theorem getD_map_fin (l : List ℝ) (i : ℕ) :
    (l.map F64.fin).getD i (F64.fin 0) = F64.fin (l.getD i 0) := by
  simp only [List.getD_eq_getElem?_getD, List.getElem?_map]
  cases l[i]? <;> rfl

theorem getD_map_triple (l : List (ℝ × ℝ × ℝ)) (i : ℕ) :
    (l.map fun t => (F64.fin t.1, F64.fin t.2.1, F64.fin t.2.2)).getD i
        (F64.fin 0, F64.fin 0, F64.fin 0)
      = (F64.fin (l.getD i (0, 0, 0)).1, F64.fin (l.getD i (0, 0, 0)).2.1,
         F64.fin (l.getD i (0, 0, 0)).2.2) := by
  simp only [List.getD_eq_getElem?_getD, List.getElem?_map]
  cases l[i]? <;> rfl

/-! ## Decay Engine: helper lemmas -/

/-- Evaluation of `calculate_decayed_strength` on finite arguments when the
dampening denominator is nonzero. -/
theorem calculate_decayed_strength_fin (s e r d : ℝ) (n : ℕ)
    (hd : 1 + d * Real.log (1 + (n : ℝ)) ≠ 0) :
    calculate_decayed_strength (F64.fin s) (F64.fin e) (F64.fin r) n (F64.fin d)
      = F64.fin (max 0 (min 1 (s * Real.exp (-r * e / (1 + d * Real.log (1 + (n : ℝ))))))) := by
  have h1 : (0 : ℝ) < 1 + (n : ℝ) := by positivity
  unfold calculate_decayed_strength
  simp [F64.ln_fin _ h1, F64.div_fin _ _ hd]

/-- The batch dampening term evaluates to a finite value. -/
theorem damp_eval (n : ℕ) :
    F64.fin 1 + F64.fin (0.5 : ℝ) * F64.ln (F64.fin 1 + F64.fin (n : ℝ))
      = F64.fin (1 + 0.5 * Real.log (1 + (n : ℝ))) := by
  have h1 : (0 : ℝ) < 1 + (n : ℝ) := by positivity
  simp [F64.ln_fin _ h1]

/-- The batch dampening value is positive (it is at least 1). -/
theorem damp_pos (n : ℕ) : (0 : ℝ) < 1 + 0.5 * Real.log (1 + (n : ℝ)) := by
  have h1 : (1 : ℝ) ≤ 1 + (n : ℝ) := le_add_of_nonneg_right (Nat.cast_nonneg n)
  have h2 := Real.log_nonneg h1
  nlinarith

/-- Evaluation of one finite component of the batch decay loop. -/
theorem decay_component_fin (x rate e : ℝ) (n : ℕ) :
    (F64.fin x * F64.exp (-F64.fin rate * F64.fin e
        / (F64.fin 1 + F64.fin (0.5 : ℝ) * F64.ln (F64.fin 1 + F64.fin (n : ℝ))))).clamp01
      = F64.fin (max 0 (min 1 (x * Real.exp (-rate * e / (1 + 0.5 * Real.log (1 + (n : ℝ))))))) := by
  rw [damp_eval]
  simp [F64.div_fin _ _ (damp_pos n).ne']

/-- A NaN component of the batch decay loop stays NaN. -/
theorem decay_component_nan (rate e : ℝ) (n : ℕ) :
    (F64.nan * F64.exp (-F64.fin rate * F64.fin e
        / (F64.fin 1 + F64.fin (0.5 : ℝ) * F64.ln (F64.fin 1 + F64.fin (n : ℝ))))).clamp01
      = F64.nan := by
  rw [damp_eval]
  simp [F64.div_fin _ _ (damp_pos n).ne']

/-- Unfolding one output item of `decay_traces_batch`. -/
theorem decay_traces_batch_getD (traces : List (F64 × F64 × F64)) (elapsed_days : List F64)
    (access_counts : List ℕ) (fr mr sr : F64) (i : ℕ) (h : i < traces.length)
    (d0 : F64 × F64 × F64) :
    (decay_traces_batch traces elapsed_days access_counts fr mr sr).getD i d0
      = (let t := traces.getD i (F64.fin 0, F64.fin 0, F64.fin 0)
         let days := elapsed_days.getD i (F64.fin 0)
         let dampening := F64.fin 1
           + F64.fin (0.5 : ℝ) * F64.ln (F64.fin 1 + F64.fin (access_counts.getD i 0 : ℝ))
         ((t.1 * F64.exp (-fr * days / dampening)).clamp01,
          (t.2.1 * F64.exp (-mr * days / dampening)).clamp01,
          (t.2.2 * F64.exp (-sr * days / dampening)).clamp01)) := by
  unfold decay_traces_batch
  simp only [List.getD_eq_getElem?_getD, List.getElem?_map, List.getElem?_range h]
  rfl

/-! ## Claim C3 -/

/-- C3: `calculate_decayed_strength` returns 0.0 for NaN strength regardless of
the other arguments; otherwise (finite arguments, with the dampening
denominator of the mathematical formula nonzero so that the formula is
well defined) it returns
`clamp(strength * exp(-decay_rate * elapsed_days / (1 + dampening_factor * ln (1 + access_count))), 0, 1)`. -/
theorem C3_decayed_strength_formula :
    (∀ (e r d : F64) (n : ℕ), calculate_decayed_strength F64.nan e r n d = F64.fin 0) ∧
    (∀ (s e r d : ℝ) (n : ℕ), 1 + d * Real.log (1 + (n : ℝ)) ≠ 0 →
      calculate_decayed_strength (F64.fin s) (F64.fin e) (F64.fin r) n (F64.fin d)
        = F64.fin (max 0 (min 1 (s * Real.exp (-r * e / (1 + d * Real.log (1 + (n : ℝ)))))))) := by
  constructor
  · intro e r d n; rfl
  · intro s e r d n hd; exact calculate_decayed_strength_fin s e r d n hd

/-- Witness for C3 at concrete inputs. -/
theorem C3_witness :
    calculate_decayed_strength F64.nan (F64.fin 5) (F64.fin 2) 3 (F64.fin 1) = F64.fin 0 ∧
    calculate_decayed_strength (F64.fin (1/2)) (F64.fin 1) (F64.fin 1) 0 (F64.fin 0)
      = F64.fin (max 0 (min 1 ((1/2 : ℝ)
          * Real.exp (-(1 : ℝ) * 1 / (1 + 0 * Real.log (1 + ((0 : ℕ) : ℝ))))))) :=
  ⟨C3_decayed_strength_formula.1 (F64.fin 5) (F64.fin 2) (F64.fin 1) 3,
   C3_decayed_strength_formula.2 (1/2) 1 1 0 0 (by norm_num)⟩

/-! ## Claim C4 -/

/-- C4 fails as stated: with a negative decay rate the result grows with
elapsed days.  At strength 1/2, decay_rate -1, access 0, dampening factor 0,
elapsed days 0 and 1 give 1/2 and 1 respectively, and `1 ≤ 1/2` is false. -/
theorem C4_counterexample :
    calculate_decayed_strength (F64.fin (1/2)) (F64.fin 0) (F64.fin (-1)) 0 (F64.fin 0)
        = F64.fin (1/2) ∧
    calculate_decayed_strength (F64.fin (1/2)) (F64.fin 1) (F64.fin (-1)) 0 (F64.fin 0)
        = F64.fin 1 ∧
    ¬ ((1 : ℝ) ≤ 1/2) := by
  refine ⟨?_, ?_, by norm_num⟩
  · rw [calculate_decayed_strength_fin _ _ _ _ _ (by norm_num)]
    norm_num
  · rw [calculate_decayed_strength_fin _ _ _ _ _ (by norm_num)]
    have h2 : (2 : ℝ) < Real.exp 1 := lt_trans (by norm_num) Real.exp_one_gt_d9
    have hx : (1 : ℝ) ≤ 1/2 * Real.exp (-(-1 : ℝ) * 1 / (1 + 0 * Real.log (1 + ((0 : ℕ) : ℝ)))) := by
      norm_num
      nlinarith
    rw [min_eq_left hx]
    norm_num

/-- C4 (amended): `calculate_decayed_strength(1.0, 0.0, r, 0, d)` returns
exactly 1.0 for all finite `r ≥ 0`, `d ≥ 0`; and for fixed finite strength,
nonnegative finite decay rate and dampening factor and fixed access count,
the result is monotonically non-increasing in elapsed days. -/
theorem C4_zero_days_and_monotone :
    (∀ r d : ℝ, 0 ≤ r → 0 ≤ d →
      calculate_decayed_strength (F64.fin 1) (F64.fin 0) (F64.fin r) 0 (F64.fin d)
        = F64.fin 1) ∧
    (∀ (s r d e1 e2 : ℝ) (n : ℕ), 0 ≤ r → 0 ≤ d → e1 ≤ e2 →
      ∃ v1 v2 : ℝ,
        calculate_decayed_strength (F64.fin s) (F64.fin e1) (F64.fin r) n (F64.fin d)
          = F64.fin v1 ∧
        calculate_decayed_strength (F64.fin s) (F64.fin e2) (F64.fin r) n (F64.fin d)
          = F64.fin v2 ∧
        v2 ≤ v1) := by
  constructor
  · intro r d _ _
    rw [calculate_decayed_strength_fin _ _ _ _ _ (by norm_num)]
    norm_num
  · intro s r d e1 e2 n hr hd he
    have hL : 0 ≤ Real.log (1 + (n : ℝ)) :=
      Real.log_nonneg (le_add_of_nonneg_right (Nat.cast_nonneg n))
    have hD : (0 : ℝ) < 1 + d * Real.log (1 + (n : ℝ)) := by nlinarith
    refine ⟨_, _, calculate_decayed_strength_fin s e1 r d n hD.ne',
      calculate_decayed_strength_fin s e2 r d n hD.ne', ?_⟩
    have hexp : Real.exp (-r * e2 / (1 + d * Real.log (1 + (n : ℝ))))
        ≤ Real.exp (-r * e1 / (1 + d * Real.log (1 + (n : ℝ)))) := by
      apply Real.exp_le_exp.mpr
      apply (div_le_div_iff_of_pos_right hD).mpr
      nlinarith
    rcases le_or_lt 0 s with hs | hs
    · exact max_le_max le_rfl (min_le_min le_rfl (mul_le_mul_of_nonneg_left hexp hs))
    · have h2 : s * Real.exp (-r * e2 / (1 + d * Real.log (1 + (n : ℝ)))) ≤ 0 :=
        (mul_neg_of_neg_of_pos hs (Real.exp_pos _)).le
      have h1 : s * Real.exp (-r * e1 / (1 + d * Real.log (1 + (n : ℝ)))) ≤ 0 :=
        (mul_neg_of_neg_of_pos hs (Real.exp_pos _)).le
      rw [max_eq_left (le_trans (min_le_right 1 _) h2),
        max_eq_left (le_trans (min_le_right 1 _) h1)]

/-- Witness for C4 at concrete inputs. -/
theorem C4_witness :
    (calculate_decayed_strength (F64.fin 1) (F64.fin 0) (F64.fin 1) 0 (F64.fin 0)
      = F64.fin 1) ∧
    (∃ v1 v2 : ℝ,
      calculate_decayed_strength (F64.fin 3) (F64.fin 0) (F64.fin 1) 2 (F64.fin 1)
        = F64.fin v1 ∧
      calculate_decayed_strength (F64.fin 3) (F64.fin 1) (F64.fin 1) 2 (F64.fin 1)
        = F64.fin v2 ∧
      v2 ≤ v1) :=
  ⟨C4_zero_days_and_monotone.1 1 0 (by norm_num) (by norm_num),
   C4_zero_days_and_monotone.2 3 1 1 0 1 2 (by norm_num) (by norm_num) (by norm_num)⟩

/-! ## Claim C5 -/

/-- C5: every output trace of `decay_traces_batch` on finite inputs is
computed with dampening `1 + 0.5 * ln(1 + access_count_i)` — a fixed
coefficient 0.5 (there is no caller-supplied dampening-factor argument) —
and each of the three components independently equals
`clamp(component * exp(-rate * days_i / dampening), 0, 1)` with the fast,
mid and slow rates respectively. -/
theorem C5_batch_fixed_dampening (ts : List (ℝ × ℝ × ℝ)) (es : List ℝ) (ns : List ℕ)
    (fr mr sr : ℝ) (i : ℕ) (h : i < ts.length) (d0 : F64 × F64 × F64) :
    (decay_traces_batch (ts.map fun t => (F64.fin t.1, F64.fin t.2.1, F64.fin t.2.2))
        (es.map F64.fin) ns (F64.fin fr) (F64.fin mr) (F64.fin sr)).getD i d0
      = (F64.fin (max 0 (min 1 ((ts.getD i (0, 0, 0)).1
            * Real.exp (-fr * es.getD i 0 / (1 + 0.5 * Real.log (1 + (ns.getD i 0 : ℝ))))))),
         F64.fin (max 0 (min 1 ((ts.getD i (0, 0, 0)).2.1
            * Real.exp (-mr * es.getD i 0 / (1 + 0.5 * Real.log (1 + (ns.getD i 0 : ℝ))))))),
         F64.fin (max 0 (min 1 ((ts.getD i (0, 0, 0)).2.2
            * Real.exp (-sr * es.getD i 0 / (1 + 0.5 * Real.log (1 + (ns.getD i 0 : ℝ)))))))) := by
  have hlen : i < (ts.map fun t => (F64.fin t.1, F64.fin t.2.1, F64.fin t.2.2)).length := by
    simpa using h
  rw [decay_traces_batch_getD _ _ _ _ _ _ i hlen d0]
  simp only [getD_map_triple, getD_map_fin, decay_component_fin]

/-- Witness for C5 at a concrete one-item batch. -/
theorem C5_witness :
    (decay_traces_batch ([((1 : ℝ)/2, 0, 2)].map fun t => (F64.fin t.1, F64.fin t.2.1, F64.fin t.2.2))
        ([(1 : ℝ)].map F64.fin) [0] (F64.fin 1) (F64.fin 1) (F64.fin 1)).getD 0
        (F64.fin 0, F64.fin 0, F64.fin 0)
      = (F64.fin (max 0 (min 1 (([((1 : ℝ)/2, 0, 2)].getD 0 (0, 0, 0)).1
            * Real.exp (-(1:ℝ) * [(1 : ℝ)].getD 0 0 / (1 + 0.5 * Real.log (1 + ([(0:ℕ)].getD 0 0 : ℝ))))))),
         F64.fin (max 0 (min 1 (([((1 : ℝ)/2, 0, 2)].getD 0 (0, 0, 0)).2.1
            * Real.exp (-(1:ℝ) * [(1 : ℝ)].getD 0 0 / (1 + 0.5 * Real.log (1 + ([(0:ℕ)].getD 0 0 : ℝ))))))),
         F64.fin (max 0 (min 1 (([((1 : ℝ)/2, 0, 2)].getD 0 (0, 0, 0)).2.2
            * Real.exp (-(1:ℝ) * [(1 : ℝ)].getD 0 0 / (1 + 0.5 * Real.log (1 + ([(0:ℕ)].getD 0 0 : ℝ)))))))) :=
  C5_batch_fixed_dampening [((1 : ℝ)/2, 0, 2)] [(1 : ℝ)] [0] 1 1 1 0 (by norm_num)
    (F64.fin 0, F64.fin 0, F64.fin 0)

/-! ## Claim C6 -/

/-- C6: `decay_traces_batch` always returns one output per input trace,
whatever the lengths of the parallel sequences; an item whose elapsed-days
entry is missing is computed with `elapsed_days = 0` and (for finite rates
and trace) comes out as the input components clamped to `[0, 1]`; an item
whose access-count entry is missing is computed with `access_count = 0`,
that is with dampening 1. -/
theorem C6_ragged_defaults :
    (∀ (traces : List (F64 × F64 × F64)) (ed : List F64) (ac : List ℕ) (fr mr sr : F64),
      (decay_traces_batch traces ed ac fr mr sr).length = traces.length) ∧
    (∀ (ts : List (ℝ × ℝ × ℝ)) (ed : List F64) (ns : List ℕ) (fr mr sr : ℝ)
        (i : ℕ) (d0 : F64 × F64 × F64), ed.length ≤ i → i < ts.length →
      (decay_traces_batch (ts.map fun t => (F64.fin t.1, F64.fin t.2.1, F64.fin t.2.2)) ed ns
          (F64.fin fr) (F64.fin mr) (F64.fin sr)).getD i d0
        = (F64.fin (max 0 (min 1 (ts.getD i (0, 0, 0)).1)),
           F64.fin (max 0 (min 1 (ts.getD i (0, 0, 0)).2.1)),
           F64.fin (max 0 (min 1 (ts.getD i (0, 0, 0)).2.2)))) ∧
    (∀ (ts : List (ℝ × ℝ × ℝ)) (es : List ℝ) (ns : List ℕ) (fr mr sr : ℝ)
        (i : ℕ) (d0 : F64 × F64 × F64), ns.length ≤ i → i < ts.length →
      (decay_traces_batch (ts.map fun t => (F64.fin t.1, F64.fin t.2.1, F64.fin t.2.2))
          (es.map F64.fin) ns (F64.fin fr) (F64.fin mr) (F64.fin sr)).getD i d0
        = (F64.fin (max 0 (min 1 ((ts.getD i (0, 0, 0)).1 * Real.exp (-fr * es.getD i 0)))),
           F64.fin (max 0 (min 1 ((ts.getD i (0, 0, 0)).2.1 * Real.exp (-mr * es.getD i 0)))),
           F64.fin (max 0 (min 1 ((ts.getD i (0, 0, 0)).2.2 * Real.exp (-sr * es.getD i 0)))))) := by
  refine ⟨?_, ?_, ?_⟩
  · intro traces ed ac fr mr sr
    unfold decay_traces_batch
    simp
  · intro ts ed ns fr mr sr i d0 hed hts
    have hlen : i < (ts.map fun t => (F64.fin t.1, F64.fin t.2.1, F64.fin t.2.2)).length := by
      simpa using hts
    rw [decay_traces_batch_getD _ _ _ _ _ _ i hlen d0]
    rw [List.getD_eq_default _ _ hed]
    simp only [getD_map_triple, decay_component_fin]
    norm_num
  · intro ts es ns fr mr sr i d0 hns hts
    have hlen : i < (ts.map fun t => (F64.fin t.1, F64.fin t.2.1, F64.fin t.2.2)).length := by
      simpa using hts
    rw [decay_traces_batch_getD _ _ _ _ _ _ i hlen d0]
    rw [List.getD_eq_default _ _ hns]
    simp only [getD_map_triple, getD_map_fin, decay_component_fin]
    norm_num [Real.log_one]

/-- Witness for C6 at concrete ragged inputs. -/
theorem C6_witness :
    ((decay_traces_batch [(F64.nan, F64.pinf, F64.fin 1)] [] [] F64.pinf F64.nan
        (F64.fin 2)).length = 1) ∧
    ((decay_traces_batch ([((2 : ℝ), 3, -1)].map fun t => (F64.fin t.1, F64.fin t.2.1, F64.fin t.2.2))
        [] [7] (F64.fin 1) (F64.fin 1) (F64.fin 1)).getD 0 (F64.fin 0, F64.fin 0, F64.fin 0)
      = (F64.fin (max 0 (min 1 ([((2 : ℝ), 3, -1)].getD 0 (0, 0, 0)).1)),
         F64.fin (max 0 (min 1 ([((2 : ℝ), 3, -1)].getD 0 (0, 0, 0)).2.1)),
         F64.fin (max 0 (min 1 ([((2 : ℝ), 3, -1)].getD 0 (0, 0, 0)).2.2)))) ∧
    ((decay_traces_batch ([((2 : ℝ), 3, -1)].map fun t => (F64.fin t.1, F64.fin t.2.1, F64.fin t.2.2))
        ([(5 : ℝ)].map F64.fin) [] (F64.fin 1) (F64.fin 1) (F64.fin 1)).getD 0
        (F64.fin 0, F64.fin 0, F64.fin 0)
      = (F64.fin (max 0 (min 1 (([((2 : ℝ), 3, -1)].getD 0 (0, 0, 0)).1 * Real.exp (-(1:ℝ) * [(5 : ℝ)].getD 0 0)))),
         F64.fin (max 0 (min 1 (([((2 : ℝ), 3, -1)].getD 0 (0, 0, 0)).2.1 * Real.exp (-(1:ℝ) * [(5 : ℝ)].getD 0 0)))),
         F64.fin (max 0 (min 1 (([((2 : ℝ), 3, -1)].getD 0 (0, 0, 0)).2.2 * Real.exp (-(1:ℝ) * [(5 : ℝ)].getD 0 0)))))) :=
  ⟨C6_ragged_defaults.1 [(F64.nan, F64.pinf, F64.fin 1)] [] [] F64.pinf F64.nan (F64.fin 2),
   C6_ragged_defaults.2.1 [((2 : ℝ), 3, -1)] [] [7] 1 1 1 0
     (F64.fin 0, F64.fin 0, F64.fin 0) (by norm_num) (by norm_num),
   C6_ragged_defaults.2.2 [((2 : ℝ), 3, -1)] [(5 : ℝ)] [] 1 1 1 0
     (F64.fin 0, F64.fin 0, F64.fin 0) (by norm_num) (by norm_num)⟩

/-! ## Claim C10 -/

/-- C10: `decay_traces_batch` performs no NaN guard: a NaN in any of the
three components of a trace (with finite rates and elapsed days) yields a
NaN in the corresponding component of the output trace — it is neither
replaced by 0.0 nor clamped to any finite value. -/
theorem C10_nan_component_propagates (traces : List (F64 × F64 × F64)) (es : List ℝ)
    (ns : List ℕ) (fr mr sr : ℝ) (i : ℕ) (h : i < traces.length)
    (d0 : F64 × F64 × F64) :
    ((traces.getD i (F64.fin 0, F64.fin 0, F64.fin 0)).1 = F64.nan →
      ((decay_traces_batch traces (es.map F64.fin) ns (F64.fin fr) (F64.fin mr)
          (F64.fin sr)).getD i d0).1 = F64.nan ∧
      ∀ z : ℝ, ((decay_traces_batch traces (es.map F64.fin) ns (F64.fin fr) (F64.fin mr)
          (F64.fin sr)).getD i d0).1 ≠ F64.fin z) ∧
    ((traces.getD i (F64.fin 0, F64.fin 0, F64.fin 0)).2.1 = F64.nan →
      ((decay_traces_batch traces (es.map F64.fin) ns (F64.fin fr) (F64.fin mr)
          (F64.fin sr)).getD i d0).2.1 = F64.nan ∧
      ∀ z : ℝ, ((decay_traces_batch traces (es.map F64.fin) ns (F64.fin fr) (F64.fin mr)
          (F64.fin sr)).getD i d0).2.1 ≠ F64.fin z) ∧
    ((traces.getD i (F64.fin 0, F64.fin 0, F64.fin 0)).2.2 = F64.nan →
      ((decay_traces_batch traces (es.map F64.fin) ns (F64.fin fr) (F64.fin mr)
          (F64.fin sr)).getD i d0).2.2 = F64.nan ∧
      ∀ z : ℝ, ((decay_traces_batch traces (es.map F64.fin) ns (F64.fin fr) (F64.fin mr)
          (F64.fin sr)).getD i d0).2.2 ≠ F64.fin z) := by
  refine ⟨fun hnan => ?_, fun hnan => ?_, fun hnan => ?_⟩
  · have key : ((decay_traces_batch traces (es.map F64.fin) ns (F64.fin fr) (F64.fin mr)
        (F64.fin sr)).getD i d0).1 = F64.nan := by
      rw [decay_traces_batch_getD _ _ _ _ _ _ i h d0]
      simp only [getD_map_fin]
      rw [hnan]
      exact decay_component_nan _ _ _
    exact ⟨key, fun z => by rw [key]; simp⟩
  · have key : ((decay_traces_batch traces (es.map F64.fin) ns (F64.fin fr) (F64.fin mr)
        (F64.fin sr)).getD i d0).2.1 = F64.nan := by
      rw [decay_traces_batch_getD _ _ _ _ _ _ i h d0]
      simp only [getD_map_fin]
      rw [hnan]
      exact decay_component_nan _ _ _
    exact ⟨key, fun z => by rw [key]; simp⟩
  · have key : ((decay_traces_batch traces (es.map F64.fin) ns (F64.fin fr) (F64.fin mr)
        (F64.fin sr)).getD i d0).2.2 = F64.nan := by
      rw [decay_traces_batch_getD _ _ _ _ _ _ i h d0]
      simp only [getD_map_fin]
      rw [hnan]
      exact decay_component_nan _ _ _
    exact ⟨key, fun z => by rw [key]; simp⟩

/-- Witness for C10 at a concrete one-item batch whose trace is NaN in all
three components, exercising the fast, mid and slow cases. -/
theorem C10_witness :
    (((decay_traces_batch [(F64.nan, F64.nan, F64.nan)] ([(2 : ℝ)].map F64.fin) [5]
        (F64.fin 1) (F64.fin 2) (F64.fin 3)).getD 0 (F64.fin 0, F64.fin 0, F64.fin 0)).1
      = F64.nan ∧
     ∀ z : ℝ, ((decay_traces_batch [(F64.nan, F64.nan, F64.nan)] ([(2 : ℝ)].map F64.fin) [5]
        (F64.fin 1) (F64.fin 2) (F64.fin 3)).getD 0 (F64.fin 0, F64.fin 0, F64.fin 0)).1
      ≠ F64.fin z) ∧
    (((decay_traces_batch [(F64.nan, F64.nan, F64.nan)] ([(2 : ℝ)].map F64.fin) [5]
        (F64.fin 1) (F64.fin 2) (F64.fin 3)).getD 0 (F64.fin 0, F64.fin 0, F64.fin 0)).2.1
      = F64.nan ∧
     ∀ z : ℝ, ((decay_traces_batch [(F64.nan, F64.nan, F64.nan)] ([(2 : ℝ)].map F64.fin) [5]
        (F64.fin 1) (F64.fin 2) (F64.fin 3)).getD 0 (F64.fin 0, F64.fin 0, F64.fin 0)).2.1
      ≠ F64.fin z) ∧
    (((decay_traces_batch [(F64.nan, F64.nan, F64.nan)] ([(2 : ℝ)].map F64.fin) [5]
        (F64.fin 1) (F64.fin 2) (F64.fin 3)).getD 0 (F64.fin 0, F64.fin 0, F64.fin 0)).2.2
      = F64.nan ∧
     ∀ z : ℝ, ((decay_traces_batch [(F64.nan, F64.nan, F64.nan)] ([(2 : ℝ)].map F64.fin) [5]
        (F64.fin 1) (F64.fin 2) (F64.fin 3)).getD 0 (F64.fin 0, F64.fin 0, F64.fin 0)).2.2
      ≠ F64.fin z) :=
  ⟨(C10_nan_component_propagates [(F64.nan, F64.nan, F64.nan)] [(2 : ℝ)] [5] 1 2 3 0
      (by norm_num) (F64.fin 0, F64.fin 0, F64.fin 0)).1 rfl,
   (C10_nan_component_propagates [(F64.nan, F64.nan, F64.nan)] [(2 : ℝ)] [5] 1 2 3 0
      (by norm_num) (F64.fin 0, F64.fin 0, F64.fin 0)).2.1 rfl,
   (C10_nan_component_propagates [(F64.nan, F64.nan, F64.nan)] [(2 : ℝ)] [5] 1 2 3 0
      (by norm_num) (F64.fin 0, F64.fin 0, F64.fin 0)).2.2 rfl⟩

/-! ## Similarity Engine: accumulator lemmas -/

theorem sqAcc_mul_self (y : F64) : SqAcc (y * y) := by
  cases y with
  | fin x => exact Or.inr (Or.inr ⟨x * x, mul_self_nonneg x, rfl⟩)
  | pinf => exact Or.inr (Or.inl rfl)
  | ninf => exact Or.inr (Or.inl rfl)
  | nan => exact Or.inl rfl

theorem sqAcc_add {a b : F64} (ha : SqAcc a) (hb : SqAcc b) : SqAcc (a + b) := by
  rcases ha with ha | ha | ⟨r, hr, ha⟩ <;> subst ha <;>
    rcases hb with hb | hb | ⟨s, hs, hb⟩ <;> subst hb
  · exact Or.inl rfl
  · exact Or.inl rfl
  · exact Or.inl rfl
  · exact Or.inl rfl
  · exact Or.inr (Or.inl rfl)
  · exact Or.inr (Or.inl rfl)
  · exact Or.inl rfl
  · exact Or.inr (Or.inl rfl)
  · exact Or.inr (Or.inr ⟨r + s, by positivity, rfl⟩)

theorem sqAcc_foldl_sq (l : List F64) (i : F64) (h : SqAcc i) :
    SqAcc (l.foldl (fun acc x => acc + x * x) i) := by
  induction l generalizing i with
  | nil => exact h
  | cons x xs ih => exact ih _ (sqAcc_add h (sqAcc_mul_self x))

theorem sqAcc_foldl_fst (l : List (F64 × F64)) (i : F64) (h : SqAcc i) :
    SqAcc (l.foldl (fun acc p => acc + p.1 * p.1) i) := by
  induction l generalizing i with
  | nil => exact h
  | cons p ps ih => exact ih _ (sqAcc_add h (sqAcc_mul_self p.1))

theorem sqAcc_foldl_snd (l : List (F64 × F64)) (i : F64) (h : SqAcc i) :
    SqAcc (l.foldl (fun acc p => acc + p.2 * p.2) i) := by
  induction l generalizing i with
  | nil => exact h
  | cons p ps ih => exact ih _ (sqAcc_add h (sqAcc_mul_self p.2))

theorem sqAcc_fin_zero : SqAcc (F64.fin 0) := Or.inr (Or.inr ⟨0, le_refl 0, rfl⟩)

theorem sqAcc_sqrt {x : F64} (h : SqAcc x) :
    x.sqrt = F64.nan ∨ x.sqrt = F64.pinf ∨ ∃ r : ℝ, 0 ≤ r ∧ x.sqrt = F64.fin r := by
  rcases h with h | h | ⟨r, hr, h⟩ <;> subst h
  · exact Or.inl rfl
  · exact Or.inr (Or.inl rfl)
  · exact Or.inr (Or.inr ⟨Real.sqrt r, Real.sqrt_nonneg r, by simp [not_lt.mpr hr]⟩)

theorem sqrt_eq_fin_zero {x : F64} (h : SqAcc x) (hs : x.sqrt = F64.fin 0) :
    x = F64.fin 0 := by
  rcases h with h | h | ⟨r, hr, h⟩ <;> subst h
  · simp at hs
  · simp [F64.sqrt] at hs
  · rw [F64.sqrt_fin r (not_lt.mpr hr), F64.fin_inj] at hs
    rw [(Real.sqrt_eq_zero hr).mp hs]

/-! ## Similarity Engine: fold decomposition lemmas -/

theorem simAccum_eq (l : List (F64 × F64)) (x y z : F64) :
    l.foldl simStep (x, y, z)
      = (l.foldl (fun acc p => acc + p.1 * p.2) x,
         l.foldl (fun acc p => acc + p.1 * p.1) y,
         l.foldl (fun acc p => acc + p.2 * p.2) z) := by
  induction l generalizing x y z with
  | nil => rfl
  | cons p ps ih =>
    simp only [List.foldl_cons]
    exact ih _ _ _

theorem prenormAccum_eq (l : List (F64 × F64)) (x y : F64) :
    l.foldl (fun acc p => (acc.1 + p.1 * p.2, acc.2 + p.2 * p.2)) (x, y)
      = (l.foldl (fun acc p => acc + p.1 * p.2) x,
         l.foldl (fun acc p => acc + p.2 * p.2) y) := by
  induction l generalizing x y with
  | nil => rfl
  | cons p ps ih =>
    simp only [List.foldl_cons]
    exact ih _ _

theorem foldl_zip_fst (a : List F64) (b : List F64) (i : F64) (h : a.length ≤ b.length) :
    (a.zip b).foldl (fun acc p => acc + p.1 * p.1) i
      = a.foldl (fun acc x => acc + x * x) i := by
  induction a generalizing b i with
  | nil => simp
  | cons x xs ih =>
    cases b with
    | nil => simp at h
    | cons y ys =>
      simp only [List.zip_cons_cons, List.foldl_cons]
      exact ih ys _ (by simpa using h)

theorem foldl_zip_snd (a : List F64) (b : List F64) (i : F64) (h : b.length ≤ a.length) :
    (a.zip b).foldl (fun acc p => acc + p.2 * p.2) i
      = b.foldl (fun acc x => acc + x * x) i := by
  induction b generalizing a i with
  | nil => simp [List.zip_nil_right]
  | cons y ys ih =>
    cases a with
    | nil => simp at h
    | cons x xs =>
      simp only [List.zip_cons_cons, List.foldl_cons]
      exact ih xs _ (by simpa using h)

theorem zero_foldl_sq (l : List F64) (c : ℝ) (h : ∀ x ∈ l, x = F64.fin 0) :
    l.foldl (fun acc x => acc + x * x) (F64.fin c) = F64.fin c := by
  induction l generalizing c with
  | nil => rfl
  | cons x xs ih =>
    have hx : x = F64.fin 0 := h x (List.mem_cons_self x xs)
    subst hx
    simp only [List.foldl_cons, F64.mul_fin, F64.add_fin]
    rw [ih (c + 0 * 0) fun x hx => h x (List.mem_cons_of_mem _ hx)]
    norm_num

theorem zero_foldl_snd (l : List (F64 × F64)) (c : ℝ) (h : ∀ p ∈ l, p.2 = F64.fin 0) :
    l.foldl (fun acc p => acc + p.2 * p.2) (F64.fin c) = F64.fin c := by
  induction l generalizing c with
  | nil => rfl
  | cons p ps ih =>
    have hp : p.2 = F64.fin 0 := h p (List.mem_cons_self p ps)
    simp only [List.foldl_cons, hp, F64.mul_fin, F64.add_fin]
    rw [ih (c + 0 * 0) fun q hq => h q (List.mem_cons_of_mem _ hq)]
    norm_num

/-! ## Similarity Engine: evaluation lemmas -/

/-- On nonempty equal-length inputs, `cosine_similarity` reduces to its
three separate accumulator folds. -/
theorem cosine_eval_core (a b : List F64) (ha : a ≠ []) (hb : b ≠ [])
    (hlen : a.length = b.length) :
    cosine_similarity a b =
      (if (a.foldl (fun acc x => acc + x * x) (F64.fin 0)).sqrt
          * ((a.zip b).foldl (fun acc p => acc + p.2 * p.2) (F64.fin 0)).sqrt = F64.fin 0
       then F64.fin 0
       else
         if (((a.zip b).foldl (fun acc p => acc + p.1 * p.2) (F64.fin 0))
              / ((a.foldl (fun acc x => acc + x * x) (F64.fin 0)).sqrt
                  * ((a.zip b).foldl (fun acc p => acc + p.2 * p.2) (F64.fin 0)).sqrt)).isNaN
            || (((a.zip b).foldl (fun acc p => acc + p.1 * p.2) (F64.fin 0))
              / ((a.foldl (fun acc x => acc + x * x) (F64.fin 0)).sqrt
                  * ((a.zip b).foldl (fun acc p => acc + p.2 * p.2) (F64.fin 0)).sqrt)).isInfinite
         then F64.fin 0
         else ((a.zip b).foldl (fun acc p => acc + p.1 * p.2) (F64.fin 0))
              / ((a.foldl (fun acc x => acc + x * x) (F64.fin 0)).sqrt
                  * ((a.zip b).foldl (fun acc p => acc + p.2 * p.2) (F64.fin 0)).sqrt)) := by
  unfold cosine_similarity
  rw [if_neg (by simp [ha, hb, hlen])]
  rw [simAccum_eq, foldl_zip_fst a b _ hlen.le]

/-- On equal-length inputs, `cosine_sim_with_prenorm` reduces to its two
separate accumulator folds. -/
theorem prenorm_eval_core (a : List F64) (qn : F64) (b : List F64)
    (hlen : b.length = a.length) :
    cosine_sim_with_prenorm a qn b =
      (if qn * ((a.zip b).foldl (fun acc p => acc + p.2 * p.2) (F64.fin 0)).sqrt = F64.fin 0
       then F64.fin 0
       else
         if (((a.zip b).foldl (fun acc p => acc + p.1 * p.2) (F64.fin 0))
              / (qn * ((a.zip b).foldl (fun acc p => acc + p.2 * p.2) (F64.fin 0)).sqrt)).isNaN
            || (((a.zip b).foldl (fun acc p => acc + p.1 * p.2) (F64.fin 0))
              / (qn * ((a.zip b).foldl (fun acc p => acc + p.2 * p.2) (F64.fin 0)).sqrt)).isInfinite
         then F64.fin 0
         else ((a.zip b).foldl (fun acc p => acc + p.1 * p.2) (F64.fin 0))
              / (qn * ((a.zip b).foldl (fun acc p => acc + p.2 * p.2) (F64.fin 0)).sqrt)) := by
  unfold cosine_sim_with_prenorm
  rw [if_neg (by simp [hlen])]
  rw [prenormAccum_eq]

/-- If the first argument has a zero sum-of-squares accumulator, the
similarity is 0 whatever the second argument is. -/
theorem cosine_normA_zero (query v : List F64)
    (hA : query.foldl (fun acc x => acc + x * x) (F64.fin 0) = F64.fin 0) :
    cosine_similarity query v = F64.fin 0 := by
  by_cases hq : query = []
  · subst hq; rfl
  by_cases hv : v = []
  · subst hv
    unfold cosine_similarity
    rw [if_pos (by simp)]
  by_cases hlen : query.length = v.length
  · rw [cosine_eval_core query v hq hv hlen, hA,
      F64.sqrt_fin 0 (by norm_num), Real.sqrt_zero]
    rcases sqAcc_sqrt (sqAcc_foldl_snd (query.zip v) _ sqAcc_fin_zero)
      with hs | hs | ⟨r, _, hs⟩ <;> rw [hs]
    · rw [F64.mul_nan, if_neg (by simp), F64.div_nan]
      rfl
    · rw [F64.fin_mul_pinf 0 rfl, if_neg (by simp), F64.div_nan]
      rfl
    · rw [F64.mul_fin, if_pos (by simp)]
  · unfold cosine_similarity
    rw [if_pos (by simp [hlen])]

/-- If the second argument has a zero sum-of-squares accumulator (and the
lengths agree), the similarity is 0 whatever the first argument is. -/
theorem cosine_normB_zero (query v : List F64) (hlen : query.length = v.length)
    (hB : v.foldl (fun acc x => acc + x * x) (F64.fin 0) = F64.fin 0) :
    cosine_similarity query v = F64.fin 0 := by
  by_cases hq : query = []
  · subst hq; rfl
  by_cases hv : v = []
  · subst hv
    unfold cosine_similarity
    rw [if_pos (by simp)]
  rw [cosine_eval_core query v hq hv hlen,
    foldl_zip_snd query v _ hlen.ge, hB, F64.sqrt_fin 0 (by norm_num), Real.sqrt_zero]
  rcases sqAcc_sqrt (sqAcc_foldl_sq query _ sqAcc_fin_zero)
    with hs | hs | ⟨r, _, hs⟩ <;> rw [hs]
  · rw [F64.nan_mul, if_neg (by simp), F64.div_nan]
    rfl
  · rw [F64.pinf_mul_fin_zero, if_neg (by simp), F64.div_nan]
    rfl
  · rw [F64.mul_fin, if_pos (by simp)]

/-- Similarity of the empty query with anything is 0. -/
theorem cosine_empty_left (v : List F64) : cosine_similarity [] v = F64.fin 0 := rfl

/-- The per-item helper of the batch agrees with `cosine_similarity` when
the supplied norm is the square root of the query's sum-of-squares. -/
theorem prenorm_eq_cosine (query v : List F64) (hq : query ≠ []) :
    cosine_sim_with_prenorm query
        (((query.map fun x => x * x).foldl (· + ·) (F64.fin 0)).sqrt) v
      = cosine_similarity query v := by
  by_cases hlen : v.length = query.length
  · have hv : v ≠ [] := by
      intro h
      subst h
      exact hq (List.length_eq_zero.mp hlen.symm)
    rw [prenorm_eval_core query _ v hlen, cosine_eval_core query v hq hv hlen.symm,
      List.foldl_map]
  · have h3 : query.length ≠ v.length := fun h => hlen h.symm
    unfold cosine_sim_with_prenorm cosine_similarity
    rw [if_pos (by simp [hlen]), if_pos (by simp [h3])]

/-! ## Claim C1 -/

/-- C1 (main content): `cosine_similarity_batch` returns exactly the sequence
of per-item `cosine_similarity` scores, in order, for every query and store;
in particular the output does not depend on the 256-item sequential/parallel
switch (both arms of the embedded size test are the same deterministic map),
and any store extended by further items (e.g. 255 items padded to 256) keeps
the same per-item scores on the common prefix. -/
theorem cosine_batch_eq_map (query : List F64) (store : List (List F64)) :
    cosine_similarity_batch query store = store.map (cosine_similarity query) := by
    unfold cosine_similarity_batch
    by_cases hq : query = []
    · subst hq
      rw [if_pos (by simp)]
      rw [show cosine_similarity [] = fun _ => F64.fin 0
          from funext fun v => cosine_empty_left v]
      rw [List.map_const']
    by_cases hs : store = []
    · subst hs
      rw [if_pos (by simp)]
      rfl
    rw [if_neg (by simp [hq, hs])]
    by_cases hqn : ((query.map fun x => x * x).foldl (· + ·) (F64.fin 0)).sqrt = F64.fin 0
    · rw [if_pos hqn]
      have hA : query.foldl (fun acc x => acc + x * x) (F64.fin 0) = F64.fin 0 := by
        have h0 : (query.map fun x => x * x).foldl (· + ·) (F64.fin 0) = F64.fin 0 := by
          have := sqrt_eq_fin_zero (x := (query.map fun x => x * x).foldl (· + ·) (F64.fin 0))
            ?_ hqn
          · exact this
          · rw [List.foldl_map]
            exact sqAcc_foldl_sq query _ sqAcc_fin_zero
        rw [← List.foldl_map]
        exact h0
      rw [show store.map (cosine_similarity query) = store.map fun _ => F64.fin 0
          from List.map_congr_left fun v _ => cosine_normA_zero query v hA]
      rw [List.map_const']
    · rw [if_neg hqn, ite_self]
      exact List.map_congr_left fun v _ => prenorm_eq_cosine query v hq

/-! ## Claim C1 (theorem) -/

/-- C1 theorem: see the doc comment above `cosine_batch_eq_map`; this packages
the pointwise-map equality together with the prefix-stability consequence. -/
theorem C1_batch_eq_map :
    (∀ (query : List F64) (store : List (List F64)),
      cosine_similarity_batch query store = store.map (cosine_similarity query)) ∧
    (∀ (query : List F64) (store extra : List (List F64)),
      (cosine_similarity_batch query (store ++ extra)).take store.length
        = cosine_similarity_batch query store) := by
  refine ⟨cosine_batch_eq_map, ?_⟩
  intro query store extra
  rw [cosine_batch_eq_map, cosine_batch_eq_map, List.map_append]
  rw [show store.length = (store.map (cosine_similarity query)).length by simp]
  exact List.take_left _ _

/-! ## Real-valued fold lemmas for the similarity bounds -/

theorem foldl_fin_sq (as : List ℝ) (c : ℝ) :
    (as.map F64.fin).foldl (fun acc x => acc + x * x) (F64.fin c)
      = F64.fin (as.foldl (fun acc x => acc + x * x) c) := by
  induction as generalizing c with
  | nil => rfl
  | cons x xs ih =>
    simp only [List.map_cons, List.foldl_cons, F64.mul_fin, F64.add_fin]
    exact ih _

theorem foldl_fin_dot (ps : List (ℝ × ℝ)) (c : ℝ) :
    (ps.map (Prod.map F64.fin F64.fin)).foldl (fun acc p => acc + p.1 * p.2) (F64.fin c)
      = F64.fin (ps.foldl (fun acc p => acc + p.1 * p.2) c) := by
  induction ps generalizing c with
  | nil => rfl
  | cons p ps ih =>
    simp only [List.map_cons, List.foldl_cons, Prod.map_fst, Prod.map_snd,
      F64.mul_fin, F64.add_fin]
    exact ih _

theorem foldl_fin_sndsq (ps : List (ℝ × ℝ)) (c : ℝ) :
    (ps.map (Prod.map F64.fin F64.fin)).foldl (fun acc p => acc + p.2 * p.2) (F64.fin c)
      = F64.fin (ps.foldl (fun acc p => acc + p.2 * p.2) c) := by
  induction ps generalizing c with
  | nil => rfl
  | cons p ps ih =>
    simp only [List.map_cons, List.foldl_cons, Prod.map_fst, Prod.map_snd,
      F64.mul_fin, F64.add_fin]
    exact ih _

theorem foldl_zip_fst_real (as bs : List ℝ) (c : ℝ) (h : as.length ≤ bs.length) :
    (as.zip bs).foldl (fun acc p => acc + p.1 * p.1) c
      = as.foldl (fun acc x => acc + x * x) c := by
  induction as generalizing bs c with
  | nil => simp
  | cons x xs ih =>
    cases bs with
    | nil => simp at h
    | cons y ys =>
      simp only [List.zip_cons_cons, List.foldl_cons]
      exact ih ys _ (by simpa using h)

theorem foldl_zip_self_dot (as : List ℝ) (c : ℝ) :
    (as.zip as).foldl (fun acc p => acc + p.1 * p.2) c
      = as.foldl (fun acc x => acc + x * x) c := by
  induction as generalizing c with
  | nil => rfl
  | cons x xs ih =>
    simp only [List.zip_cons_cons, List.foldl_cons]
    -- the tail of `(x :: xs).zip (x :: xs)` is `xs.zip xs`
    exact ih _

theorem foldl_zip_self_snd (as : List ℝ) (c : ℝ) :
    (as.zip as).foldl (fun acc p => acc + p.2 * p.2) c
      = as.foldl (fun acc x => acc + x * x) c := by
  induction as generalizing c with
  | nil => rfl
  | cons x xs ih =>
    simp only [List.zip_cons_cons, List.foldl_cons]
    exact ih _

theorem foldl_add_sum (f : ℝ × ℝ → ℝ) (ps : List (ℝ × ℝ)) (c : ℝ) :
    ps.foldl (fun acc p => acc + f p) c = c + (ps.map f).sum := by
  induction ps generalizing c with
  | nil => simp
  | cons p ps ih =>
    simp only [List.foldl_cons, List.map_cons, List.sum_cons, ih]
    ring

theorem foldl_sq_ge_init (as : List ℝ) (c : ℝ) :
    c ≤ as.foldl (fun acc x => acc + x * x) c := by
  induction as generalizing c with
  | nil => exact le_refl c
  | cons x xs ih =>
    exact le_trans (le_add_of_nonneg_right (mul_self_nonneg x)) (ih (c + x * x))

theorem foldl_sq_nonneg (as : List ℝ) (c : ℝ) (hc : 0 ≤ c) :
    0 ≤ as.foldl (fun acc x => acc + x * x) c :=
  le_trans hc (foldl_sq_ge_init as c)

theorem foldl_sq_pos (as : List ℝ) (c : ℝ) (hc : 0 ≤ c) (x : ℝ) (hx : x ∈ as)
    (hx0 : x ≠ 0) : 0 < as.foldl (fun acc x => acc + x * x) c := by
  induction as generalizing c with
  | nil => cases hx
  | cons y ys ih =>
    rcases List.mem_cons.mp hx with h | h
    · subst h
      have h1 : 0 < c + x * x := by
        have := mul_self_pos.mpr hx0
        linarith
      exact lt_of_lt_of_le h1 (foldl_sq_ge_init ys (c + x * x))
    · exact ih (c + y * y) (by nlinarith [mul_self_nonneg y]) h

/-! ## Cauchy-Schwarz for list folds -/

theorem list_sum_eq_range (g : ℝ × ℝ → ℝ) (ps : List (ℝ × ℝ)) :
    (ps.map g).sum = ∑ i in Finset.range ps.length, g (ps.getD i (0, 0)) := by
  induction ps with
  | nil => simp
  | cons p ps ih =>
    simp only [List.map_cons, List.sum_cons, List.length_cons, ih]
    rw [Finset.sum_range_succ' (fun i => g ((p :: ps).getD i (0, 0))) ps.length]
    simp [List.getD_cons_succ, List.getD_cons_zero, add_comm]

/-- Cauchy-Schwarz for a list of pairs of reals. -/
theorem pairs_cs (ps : List (ℝ × ℝ)) :
    ((ps.map fun p => p.1 * p.2).sum) ^ 2
      ≤ (ps.map fun p => p.1 * p.1).sum * (ps.map fun p => p.2 * p.2).sum := by
  rw [list_sum_eq_range, list_sum_eq_range, list_sum_eq_range]
  have h := Finset.sum_mul_sq_le_sq_mul_sq (Finset.range ps.length)
    (fun i => (ps.getD i (0, 0)).1) (fun i => (ps.getD i (0, 0)).2)
  calc (∑ i in Finset.range ps.length, (ps.getD i (0, 0)).1 * (ps.getD i (0, 0)).2) ^ 2
      ≤ (∑ i in Finset.range ps.length, (ps.getD i (0, 0)).1 ^ 2)
        * ∑ i in Finset.range ps.length, (ps.getD i (0, 0)).2 ^ 2 := h
    _ = (∑ i in Finset.range ps.length, (ps.getD i (0, 0)).1 * (ps.getD i (0, 0)).1)
        * ∑ i in Finset.range ps.length, (ps.getD i (0, 0)).2 * (ps.getD i (0, 0)).2 := by
      simp [pow_two]

/-! ## Similarity bound -/

/-- Similarity of the other-side empty vector is 0. -/
theorem cosine_empty_right (a : List F64) : cosine_similarity a [] = F64.fin 0 := by
  unfold cosine_similarity
  rw [if_pos (by simp)]

/-- On all-finite inputs, `cosine_similarity` returns a finite value in
`[-1, 1]`. -/
theorem cosine_fin_bounded (as bs : List ℝ) :
    ∃ r : ℝ, cosine_similarity (as.map F64.fin) (bs.map F64.fin) = F64.fin r ∧
      -1 ≤ r ∧ r ≤ 1 := by
  by_cases hq : as = []
  · subst hq
    exact ⟨0, cosine_empty_left _, by norm_num, by norm_num⟩
  by_cases hb : bs = []
  · subst hb
    exact ⟨0, cosine_empty_right _, by norm_num, by norm_num⟩
  by_cases hlen : as.length = bs.length
  swap
  · refine ⟨0, ?_, by norm_num, by norm_num⟩
    unfold cosine_similarity
    rw [if_pos (by simp [hlen])]
  rw [cosine_eval_core _ _ (by simp [hq]) (by simp [hb]) (by simp [hlen])]
  rw [List.zip_map, foldl_fin_dot, foldl_fin_sndsq, foldl_fin_sq]
  rw [← foldl_zip_fst_real as bs 0 hlen.le]
  rw [foldl_add_sum (fun p => p.1 * p.2), foldl_add_sum (fun p => p.1 * p.1),
    foldl_add_sum (fun p => p.2 * p.2)]
  simp only [zero_add]
  have hA0 : 0 ≤ ((as.zip bs).map fun p => p.1 * p.1).sum := by
    apply List.sum_nonneg
    intro x hx
    obtain ⟨p, _, rfl⟩ := List.mem_map.mp hx
    exact mul_self_nonneg _
  have hB0 : 0 ≤ ((as.zip bs).map fun p => p.2 * p.2).sum := by
    apply List.sum_nonneg
    intro x hx
    obtain ⟨p, _, rfl⟩ := List.mem_map.mp hx
    exact mul_self_nonneg _
  have hcs := pairs_cs (as.zip bs)
  rw [F64.sqrt_fin _ (not_lt.mpr hA0), F64.sqrt_fin _ (not_lt.mpr hB0), F64.mul_fin]
  by_cases hz : Real.sqrt (((as.zip bs).map fun p => p.1 * p.1).sum)
      * Real.sqrt (((as.zip bs).map fun p => p.2 * p.2).sum) = 0
  · refine ⟨0, ?_, by norm_num, by norm_num⟩
    rw [if_pos (by simp [hz])]
  · rw [if_neg (by simp [hz]), F64.div_fin _ _ hz, if_neg (by simp)]
    refine ⟨_, rfl, ?_, ?_⟩
    · have hP0 : 0 < Real.sqrt (((as.zip bs).map fun p => p.1 * p.1).sum)
          * Real.sqrt (((as.zip bs).map fun p => p.2 * p.2).sum) :=
        lt_of_le_of_ne (mul_nonneg (Real.sqrt_nonneg _) (Real.sqrt_nonneg _)) (Ne.symm hz)
      have habs : |((as.zip bs).map fun p => p.1 * p.2).sum|
          ≤ Real.sqrt (((as.zip bs).map fun p => p.1 * p.1).sum)
            * Real.sqrt (((as.zip bs).map fun p => p.2 * p.2).sum) := by
        rw [← Real.sqrt_sq_eq_abs, ← Real.sqrt_mul hA0]
        exact Real.sqrt_le_sqrt hcs
      rcases abs_le.mp habs with ⟨h1, _⟩
      exact (le_div_iff₀ hP0).mpr (by linarith)
    · have hP0 : 0 < Real.sqrt (((as.zip bs).map fun p => p.1 * p.1).sum)
          * Real.sqrt (((as.zip bs).map fun p => p.2 * p.2).sum) :=
        lt_of_le_of_ne (mul_nonneg (Real.sqrt_nonneg _) (Real.sqrt_nonneg _)) (Ne.symm hz)
      have habs : |((as.zip bs).map fun p => p.1 * p.2).sum|
          ≤ Real.sqrt (((as.zip bs).map fun p => p.1 * p.1).sum)
            * Real.sqrt (((as.zip bs).map fun p => p.2 * p.2).sum) := by
        rw [← Real.sqrt_sq_eq_abs, ← Real.sqrt_mul hA0]
        exact Real.sqrt_le_sqrt hcs
      rcases abs_le.mp habs with ⟨_, h2⟩
      exact (div_le_one hP0).mpr h2

/-! ## Claim C2 -/

/-- C2 fails as stated: `cosine_similarity([1.0], [-1.0])` is `-1.0`, a
finite well-shaped output of the Similarity Engine outside `[0.0, 1.0]`. -/
theorem C2_counterexample :
    cosine_similarity [F64.fin 1] [F64.fin (-1)] = F64.fin (-1) ∧ ¬ ((0 : ℝ) ≤ -1) := by
  refine ⟨?_, by norm_num⟩
  have h := cosine_eval_core [F64.fin 1] [F64.fin (-1)] (by simp) (by simp) rfl
  rw [h]
  norm_num [F64.sqrt_fin, Real.sqrt_one]

/-- C2 (amended): on all-finite inputs, every `cosine_similarity` output and
every element of a `cosine_similarity_batch` output is a finite value in
`[-1, 1]` (not `[0, 1]`); every `calculate_decayed_strength` output (with
nonnegative dampening factor, so that the dampening denominator cannot
vanish) and every component of every `decay_traces_batch` output lies in
`[0, 1]`. -/
theorem C2_outputs_bounded :
    (∀ as bs : List ℝ, ∃ r : ℝ,
      cosine_similarity (as.map F64.fin) (bs.map F64.fin) = F64.fin r ∧ -1 ≤ r ∧ r ≤ 1) ∧
    (∀ (as : List ℝ) (bss : List (List ℝ)),
      ∀ y ∈ cosine_similarity_batch (as.map F64.fin) (bss.map fun v => v.map F64.fin),
      ∃ r : ℝ, y = F64.fin r ∧ -1 ≤ r ∧ r ≤ 1) ∧
    (∀ (s e r d : ℝ) (n : ℕ), 0 ≤ d → ∃ v : ℝ,
      calculate_decayed_strength (F64.fin s) (F64.fin e) (F64.fin r) n (F64.fin d)
        = F64.fin v ∧ 0 ≤ v ∧ v ≤ 1) ∧
    (∀ (ts : List (ℝ × ℝ × ℝ)) (es : List ℝ) (ns : List ℕ) (fr mr sr : ℝ) (i : ℕ)
        (d0 : F64 × F64 × F64), i < ts.length → ∃ v1 v2 v3 : ℝ,
      (decay_traces_batch (ts.map fun t => (F64.fin t.1, F64.fin t.2.1, F64.fin t.2.2))
          (es.map F64.fin) ns (F64.fin fr) (F64.fin mr) (F64.fin sr)).getD i d0
        = (F64.fin v1, F64.fin v2, F64.fin v3) ∧
      0 ≤ v1 ∧ v1 ≤ 1 ∧ 0 ≤ v2 ∧ v2 ≤ 1 ∧ 0 ≤ v3 ∧ v3 ≤ 1) := by
  refine ⟨cosine_fin_bounded, ?_, ?_, ?_⟩
  · intro as bss y hy
    rw [cosine_batch_eq_map] at hy
    obtain ⟨v, hv, rfl⟩ := List.mem_map.mp hy
    obtain ⟨bs, _, rfl⟩ := List.mem_map.mp hv
    exact cosine_fin_bounded as bs
  · intro s e r d n hd
    have hL : 0 ≤ Real.log (1 + (n : ℝ)) :=
      Real.log_nonneg (le_add_of_nonneg_right (Nat.cast_nonneg n))
    have hD : (0 : ℝ) < 1 + d * Real.log (1 + (n : ℝ)) := by nlinarith
    exact ⟨_, calculate_decayed_strength_fin s e r d n hD.ne', le_max_left _ _,
      max_le (by norm_num) (min_le_left _ _)⟩
  · intro ts es ns fr mr sr i d0 h
    have hlen : i < (ts.map fun t => (F64.fin t.1, F64.fin t.2.1, F64.fin t.2.2)).length := by
      simpa using h
    rw [decay_traces_batch_getD _ _ _ _ _ _ i hlen d0]
    simp only [getD_map_triple, getD_map_fin, decay_component_fin]
    exact ⟨_, _, _, rfl, le_max_left _ _, max_le (by norm_num) (min_le_left _ _),
      le_max_left _ _, max_le (by norm_num) (min_le_left _ _),
      le_max_left _ _, max_le (by norm_num) (min_le_left _ _)⟩

/-- Witness for C2 at concrete inputs. -/
theorem C2_witness :
    (∃ r : ℝ, cosine_similarity ([(3 : ℝ)].map F64.fin) ([(4 : ℝ)].map F64.fin)
      = F64.fin r ∧ -1 ≤ r ∧ r ≤ 1) ∧
    (∃ r : ℝ, cosine_similarity ([(1 : ℝ), 2].map F64.fin) ([(5 : ℝ), 6].map F64.fin)
      = F64.fin r ∧ -1 ≤ r ∧ r ≤ 1) ∧
    (∃ v : ℝ, calculate_decayed_strength (F64.fin 2) (F64.fin 1) (F64.fin 1) 4 (F64.fin 1)
      = F64.fin v ∧ 0 ≤ v ∧ v ≤ 1) ∧
    (∃ v1 v2 v3 : ℝ,
      (decay_traces_batch ([((5 : ℝ), -2, 1/3)].map fun t => (F64.fin t.1, F64.fin t.2.1, F64.fin t.2.2))
          ([(1 : ℝ)].map F64.fin) [2] (F64.fin 1) (F64.fin 1) (F64.fin 1)).getD 0
          (F64.fin 0, F64.fin 0, F64.fin 0)
        = (F64.fin v1, F64.fin v2, F64.fin v3) ∧
      0 ≤ v1 ∧ v1 ≤ 1 ∧ 0 ≤ v2 ∧ v2 ≤ 1 ∧ 0 ≤ v3 ∧ v3 ≤ 1) :=
  ⟨C2_outputs_bounded.1 [(3 : ℝ)] [(4 : ℝ)],
   C2_outputs_bounded.2.1 [(1 : ℝ), 2] [[(5 : ℝ), 6]] _
     (by rw [cosine_batch_eq_map]; simp),
   C2_outputs_bounded.2.2.1 2 1 1 1 4 (by norm_num),
   C2_outputs_bounded.2.2.2 [((5 : ℝ), -2, 1/3)] [(1 : ℝ)] [2] 1 1 1 0
     (F64.fin 0, F64.fin 0, F64.fin 0) (by norm_num)⟩

/-! ## Claim C7 -/

/-- C7 fails as stated: the one-component vector `[NaN]` is not the zero
vector, yet `cosine_similarity([NaN], [NaN])` is `0.0`, not `1.0` (the NaN
propagates to the final guard, which returns the neutral value). -/
theorem C7_counterexample :
    F64.nan ≠ F64.fin 0 ∧
    cosine_similarity [F64.nan] [F64.nan] = F64.fin 0 ∧ F64.fin 0 ≠ F64.fin 1 := by
  refine ⟨by simp, ?_, by simp⟩
  have h := cosine_eval_core [F64.nan] [F64.nan] (by simp) (by simp) rfl
  rw [h]
  simp

/-- C7 (amended): `cosine_similarity(a, a) = 1.0` for every finite vector a
with some nonzero component; and `cosine_similarity(a, b) = 0.0` whenever
`a` and `b` have equal length and one of them is the all-zeros vector. -/
theorem C7_self_one_zero_zero :
    (∀ as : List ℝ, (∃ x ∈ as, x ≠ 0) →
      cosine_similarity (as.map F64.fin) (as.map F64.fin) = F64.fin 1) ∧
    (∀ a b : List F64, a.length = b.length → (∀ x ∈ a, x = F64.fin 0) →
      cosine_similarity a b = F64.fin 0) ∧
    (∀ a b : List F64, a.length = b.length → (∀ x ∈ b, x = F64.fin 0) →
      cosine_similarity a b = F64.fin 0) := by
  refine ⟨?_, ?_, ?_⟩
  · rintro as ⟨x, hx, hx0⟩
    have hne : as ≠ [] := by rintro rfl; cases hx
    rw [cosine_eval_core _ _ (by simp [hne]) (by simp [hne]) rfl]
    rw [List.zip_map, foldl_fin_dot, foldl_fin_sndsq, foldl_fin_sq]
    rw [foldl_zip_self_dot, foldl_zip_self_snd]
    have hSpos : 0 < as.foldl (fun acc x => acc + x * x) (0 : ℝ) :=
      foldl_sq_pos as 0 le_rfl x hx hx0
    rw [F64.sqrt_fin _ (not_lt.mpr hSpos.le), F64.mul_fin, Real.mul_self_sqrt hSpos.le]
    rw [if_neg (by simp [hSpos.ne'])]
    rw [F64.div_fin _ _ hSpos.ne', div_self hSpos.ne']
    rw [if_neg (by simp)]
  · intro a b _ hz
    exact cosine_normA_zero a b (zero_foldl_sq a 0 hz)
  · intro a b hlen hz
    exact cosine_normB_zero a b hlen (zero_foldl_sq b 0 hz)

/-- Witness for C7 at concrete inputs. -/
theorem C7_witness :
    cosine_similarity ([(2 : ℝ)].map F64.fin) ([(2 : ℝ)].map F64.fin) = F64.fin 1 ∧
    cosine_similarity [F64.fin 0] [F64.nan] = F64.fin 0 ∧
    cosine_similarity [F64.pinf] [F64.fin 0] = F64.fin 0 :=
  ⟨C7_self_one_zero_zero.1 [(2 : ℝ)] ⟨2, by simp, by norm_num⟩,
   C7_self_one_zero_zero.2.1 [F64.fin 0] [F64.nan] rfl (by simp),
   C7_self_one_zero_zero.2.2 [F64.pinf] [F64.fin 0] rfl (by simp)⟩

/-! ## Relevance Scorer: tokenization -/

/-- The accumulator loop of `tokenize` computes the maximal-run splitting:
with an empty accumulator it yields `specTokens`; with a nonempty one, the
accumulator gets completed by the next maximal run. -/
theorem tokenizeAux_spec (l : List Char) :
    ∀ cur : List Char,
      tokenizeAux l cur
        = if cur = [] then specTokens l
          else (cur ++ l.takeWhile isWordChar) :: specTokens (l.dropWhile isWordChar) := by
  induction l with
  | nil =>
    intro cur
    by_cases h : cur = []
    · simp [tokenizeAux, h, specTokens]
    · simp [tokenizeAux, h, specTokens]
  | cons c cs ih =>
    intro cur
    by_cases hw : isWordChar c
    · rw [show tokenizeAux (c :: cs) cur = tokenizeAux cs (cur ++ [c]) by
        simp [tokenizeAux, hw]]
      rw [ih (cur ++ [c])]
      rw [if_neg (by simp)]
      by_cases h : cur = []
      · rw [if_pos h, h]
        rw [show specTokens (c :: cs)
            = (c :: cs.takeWhile isWordChar) :: specTokens (cs.dropWhile isWordChar) by
          simp [specTokens, hw]]
        simp
      · rw [if_neg h]
        rw [List.takeWhile_cons_of_pos hw, List.dropWhile_cons_of_pos hw]
        simp
    · have hbw : isWordChar c = false := Bool.not_eq_true _ |>.mp hw
      by_cases h : cur = []
      · rw [show tokenizeAux (c :: cs) cur = tokenizeAux cs cur by
          simp [tokenizeAux, hbw, h]]
        rw [ih cur, if_pos h, if_pos h]
        rw [show specTokens (c :: cs) = specTokens cs by simp [specTokens, hbw]]
      · rw [show tokenizeAux (c :: cs) cur = cur :: tokenizeAux cs [] by
          simp [tokenizeAux, hbw, h]]
        rw [ih [], if_pos rfl, if_neg h]
        rw [List.takeWhile_cons_of_neg (by simp [hbw]), List.dropWhile_cons_of_neg (by simp [hbw])]
        rw [show specTokens (c :: cs) = specTokens cs by simp [specTokens, hbw]]
        simp

/-- Every token produced by the maximal-run splitting is a nonempty run of
word characters. -/
theorem specTokens_tokens (l : List Char) :
    ∀ t ∈ specTokens l, t ≠ [] ∧ ∀ c ∈ t, isWordChar c = true := by
  induction l using specTokens.induct with
  | case1 => intro t ht; simp [specTokens] at ht
  | case2 c cs hw ih =>
    intro t ht
    rw [show specTokens (c :: cs)
        = (c :: cs.takeWhile isWordChar) :: specTokens (cs.dropWhile isWordChar) by
      simp [specTokens, hw]] at ht
    rcases List.mem_cons.mp ht with h | h
    · subst h
      refine ⟨by simp, ?_⟩
      intro x hx
      rcases List.mem_cons.mp hx with h | h
      · subst h; exact hw
      · exact List.mem_takeWhile_imp h
    · exact ih t h
  | case3 c cs hw ih =>
    intro t ht
    rw [show specTokens (c :: cs) = specTokens cs by
      simp [specTokens, hw]] at ht
    exact ih t ht

/-! ## Claim C8 -/

/-- C8: `tokenize` lowercases its input and splits it into maximal runs of
alphanumeric-or-underscore characters, discarding all other characters as
delimiters (formalized as equality with the `specTokens` maximal-run
splitting of the lowercased input), it produces no empty tokens and only
word characters, and the two concrete examples of the spec hold. -/
theorem C8_tokenize_runs :
    (∀ text : List Char, tokenize text = specTokens (text.map Char.toLower)) ∧
    (∀ text : List Char, ∀ t ∈ tokenize text, t ≠ [] ∧ ∀ c ∈ t, isWordChar c = true) ∧
    tokenize "Hello, World_2!".data = ["hello".data, "world_2".data] ∧
    tokenize "".data = [] := by
  have h1 : ∀ text : List Char, tokenize text = specTokens (text.map Char.toLower) := by
    intro text
    unfold tokenize
    rw [tokenizeAux_spec _ [], if_pos rfl]
  refine ⟨h1, ?_, by decide, rfl⟩
  intro text t ht
  rw [h1] at ht
  exact specTokens_tokens _ t ht

/-- Witness for the membership-hypothesis part of C8 at a concrete input. -/
theorem C8_witness :
    "ab".data ≠ [] ∧ ∀ c ∈ "ab".data, isWordChar c = true :=
  C8_tokenize_runs.2.1 "ab, cd".data "ab".data (by decide)

/-! ## Relevance Scorer: BM25 -/

theorem getD_map_lt {α β : Type} (f : α → β) (l : List α) (i : ℕ) (h : i < l.length)
    (d : β) (d0 : α) : (l.map f).getD i d = f (l.getD i d0) := by
  rw [List.getD_eq_getElem?_getD, List.getElem?_map, List.getElem?_eq_getElem h,
    List.getD_eq_getElem?_getD, List.getElem?_eq_getElem h]
  rfl

/-- Evaluation of the per-document BM25 score for a single query term that
occurs in the document, with `b = 0` and a nonzero average length. -/
theorem bm25DocScore_single (t : String) (documents : List (List String)) (N : ℕ)
    (a k : ℝ) (ha : a ≠ 0) (doc : List String) (hdoc : ¬ doc.isEmpty = true)
    (htf : ¬ doc.count t = 0) (hden : (doc.count t : ℝ) + k ≠ 0) :
    bm25DocScore [t] documents N (F64.fin a) (F64.fin k) (F64.fin 0) doc
      = F64.fin (Real.log (((N : ℝ) - (docFreq documents t : ℝ) + 0.5)
            / ((docFreq documents t : ℝ) + 0.5) + 1)
          * ((doc.count t : ℝ) * (k + 1) / ((doc.count t : ℝ) + k))) := by
  unfold bm25DocScore
  rw [if_neg hdoc]
  simp only [List.foldl_cons, List.foldl_nil]
  rw [if_neg htf]
  have hdf : ((docFreq documents t : ℝ) + 0.5) ≠ 0 := by positivity
  have h2 : (0 : ℝ) < (docFreq documents t : ℝ) + 0.5 := by positivity
  have hlnpos : 0 < ((N : ℝ) + -(docFreq documents t : ℝ) + 0.5)
      / ((docFreq documents t : ℝ) + 0.5) + 1 := by
    have hN : (0 : ℝ) ≤ (N : ℝ) := Nat.cast_nonneg N
    have h3 : (-1 : ℝ) * ((docFreq documents t : ℝ) + 0.5)
        < (N : ℝ) + -(docFreq documents t : ℝ) + 0.5 := by nlinarith
    have h4 := (lt_div_iff₀ h2).mpr h3
    linarith
  have hden2 : (doc.count t : ℝ) + k * (1 + -0 + 0 * (doc.length : ℝ) / a) ≠ 0 := by
    have e : ((1 : ℝ) + -0 + 0 * (doc.length : ℝ) / a) = 1 := by ring
    rw [e, mul_one]
    exact hden
  simp only [F64.sub_fin, F64.mul_fin, F64.add_fin, F64.neg_fin]
  rw [F64.div_fin _ _ ha]
  simp only [F64.mul_fin, F64.add_fin]
  rw [F64.div_fin _ _ hdf]
  simp only [F64.add_fin]
  rw [F64.ln_fin _ hlnpos]
  rw [F64.div_fin _ _ hden2]
  simp only [F64.mul_fin, F64.add_fin, F64.fin_inj]
  ring_nf

/-- The BM25 term-frequency saturation component is strictly increasing in
the term frequency when `k1 > 0`. -/
theorem bm25_tf_mono (k : ℝ) (hk : 0 < k) (t1 t2 : ℝ) (h1 : 0 < t1) (hlt : t1 < t2) :
    t1 * (k + 1) / (t1 + k) < t2 * (k + 1) / (t2 + k) := by
  have hd1 : 0 < t1 + k := by linarith
  have hd2 : 0 < t2 + k := by linarith
  rw [div_lt_div_iff₀ hd1 hd2]
  nlinarith [mul_pos (mul_pos (show (0:ℝ) < k + 1 by linarith) hk) (sub_pos.mpr hlt)]

/-! ## Claim C9 -/

/-- C9 (amended): `bm25_score_batch` with `b = 0`, a single query term
present in every document, `k1 > 0` and `total_docs` at least the number of
documents ranks documents by raw term frequency: a document with strictly
greater term frequency receives a strictly greater score. -/
theorem C9_bm25_tf_ranking (t : String) (documents : List (List String)) (N : ℕ)
    (a0 k : ℝ) (i j : ℕ) (hk : 0 < k) (hN : documents.length ≤ N)
    (hall : ∀ doc ∈ documents, doc ≠ [] ∧ t ∈ doc)
    (hi : i < documents.length) (hj : j < documents.length)
    (hcount : (documents.getD i []).count t < (documents.getD j []).count t) :
    ∃ si sj : ℝ,
      (bm25_score_batch [t] documents N (F64.fin a0) (F64.fin k) (F64.fin 0)).getD i (F64.fin 0)
        = F64.fin si ∧
      (bm25_score_batch [t] documents N (F64.fin a0) (F64.fin k) (F64.fin 0)).getD j (F64.fin 0)
        = F64.fin sj ∧ si < sj := by
  have hdocs : documents ≠ [] := by
    intro h
    subst h
    simp at hi
  obtain ⟨a, ha, haeq⟩ : ∃ a : ℝ, a ≠ 0 ∧
      (if F64.fin a0 = F64.fin 0 then F64.fin 1 else F64.fin a0) = F64.fin a := by
    by_cases h0 : a0 = 0
    · exact ⟨1, one_ne_zero, by rw [if_pos (by simp [h0])]⟩
    · exact ⟨a0, h0, by rw [if_neg (by simp [h0])]⟩
  unfold bm25_score_batch
  rw [if_neg (by simp [hdocs])]
  simp only [haeq]
  rw [getD_map_lt _ _ i hi _ [], getD_map_lt _ _ j hj _ []]
  have hmem_i : documents.getD i [] ∈ documents := by
    rw [List.getD_eq_getElem?_getD, List.getElem?_eq_getElem hi]
    exact List.getElem_mem hi
  have hmem_j : documents.getD j [] ∈ documents := by
    rw [List.getD_eq_getElem?_getD, List.getElem?_eq_getElem hj]
    exact List.getElem_mem hj
  obtain ⟨hne_i, ht_i⟩ := hall _ hmem_i
  obtain ⟨hne_j, ht_j⟩ := hall _ hmem_j
  have htf_i : ¬ (documents.getD i []).count t = 0 :=
    Nat.pos_iff_ne_zero.mp (List.count_pos_iff.mpr ht_i)
  have htf_j : ¬ (documents.getD j []).count t = 0 :=
    Nat.pos_iff_ne_zero.mp (List.count_pos_iff.mpr ht_j)
  have hcast_i : (0 : ℝ) < ((documents.getD i []).count t : ℝ) := by
    exact_mod_cast Nat.pos_of_ne_zero htf_i
  have hcast_j : (0 : ℝ) < ((documents.getD j []).count t : ℝ) := by
    exact_mod_cast Nat.pos_of_ne_zero htf_j
  rw [bm25DocScore_single t documents N a k ha _ (by simpa using hne_i) htf_i
    (by positivity)]
  rw [bm25DocScore_single t documents N a k ha _ (by simpa using hne_j) htf_j
    (by positivity)]
  refine ⟨_, _, rfl, rfl, ?_⟩
  have hidf : 0 < Real.log (((N : ℝ) - (docFreq documents t : ℝ) + 0.5)
      / ((docFreq documents t : ℝ) + 0.5) + 1) := by
    apply Real.log_pos
    have hY : (0 : ℝ) < (docFreq documents t : ℝ) + 0.5 := by positivity
    have hdfN : (docFreq documents t : ℝ) ≤ (N : ℝ) := by
      have h1 : docFreq documents t ≤ documents.length := List.length_filter_le _ _
      exact_mod_cast le_trans h1 hN
    have hX : (0 : ℝ) < (N : ℝ) - (docFreq documents t : ℝ) + 0.5 := by linarith
    have := div_pos hX hY
    linarith
  exact mul_lt_mul_of_pos_left
    (bm25_tf_mono k hk _ _ hcast_i (by exact_mod_cast hcount)) hidf

/-- Witness for C9 at a concrete two-document batch. -/
theorem C9_witness :
    ∃ si sj : ℝ,
      (bm25_score_batch ["a"] [["a"], ["a", "a"]] 2 (F64.fin 0) (F64.fin 1)
          (F64.fin 0)).getD 0 (F64.fin 0) = F64.fin si ∧
      (bm25_score_batch ["a"] [["a"], ["a", "a"]] 2 (F64.fin 0) (F64.fin 1)
          (F64.fin 0)).getD 1 (F64.fin 0) = F64.fin sj ∧ si < sj :=
  C9_bm25_tf_ranking "a" [["a"], ["a", "a"]] 2 0 1 0 1 (by norm_num) (by norm_num)
    (by decide) (by norm_num) (by norm_num) (by decide)

/-- C9 fails as stated: with `k1 = 0` (a legal call) the term-frequency
component saturates completely, so the two documents score identically even
though their raw term frequencies differ, contradicting the claimed strict
ordering. -/
theorem C9_counterexample :
    (bm25_score_batch ["a"] [["a"], ["a", "a"]] 2 (F64.fin 1) (F64.fin 0)
        (F64.fin 0)).getD 0 (F64.fin 0) = F64.fin (Real.log (6/5)) ∧
    (bm25_score_batch ["a"] [["a"], ["a", "a"]] 2 (F64.fin 1) (F64.fin 0)
        (F64.fin 0)).getD 1 (F64.fin 0) = F64.fin (Real.log (6/5)) ∧
    ([["a"], ["a", "a"]].getD 0 []).count "a" < ([["a"], ["a", "a"]].getD 1 []).count "a" ∧
    ¬ (Real.log (6/5) < Real.log (6/5)) := by
  have hc0 : ([["a"], ["a", "a"]].getD 0 []).count "a" = 1 := by decide
  have hc1 : ([["a"], ["a", "a"]].getD 1 []).count "a" = 2 := by decide
  have hdf : docFreq [["a"], ["a", "a"]] "a" = 2 := by decide
  refine ⟨?_, ?_, by decide, lt_irrefl _⟩
  · unfold bm25_score_batch
    rw [if_neg (by simp)]
    simp only [ite_self]
    rw [getD_map_lt _ _ 0 (by norm_num) _ []]
    rw [bm25DocScore_single "a" [["a"], ["a", "a"]] 2 1 0 one_ne_zero _ (by decide)
      (by decide) (by rw [hc0]; norm_num)]
    rw [hdf, hc0, F64.fin_inj]
    norm_num
  · unfold bm25_score_batch
    rw [if_neg (by simp)]
    simp only [ite_self]
    rw [getD_map_lt _ _ 1 (by norm_num) _ []]
    rw [bm25DocScore_single "a" [["a"], ["a", "a"]] 2 1 0 one_ne_zero _ (by decide)
      (by decide) (by rw [hc1]; norm_num)]
    rw [hdf, hc1, F64.fin_inj]
    norm_num
